import Mathlib

/-
Verification of the backtracking search engine (src/backtracking.rs) and the
tile-rotation operation (src/main.rs) of the asteroids-cli-game repository,
via a shallow embedding in Lean 4.

Modelling conventions:
- Rust `Vec` used as a stack (push/pop at the end) is modelled as a Lean
  `List` whose HEAD is the stack top.  Consequently the `successors_to_try`
  list of an attempt is stored REVERSED (Rust `Vec::pop` removes the last
  produced successor first), and the root-to-terminal result path is obtained
  by reversing the head-is-deepest attempts list, exactly as the Rust code
  maps the vector from index 0 upwards.
- `HashSet<AState>` is only queried through `contains` and extended through
  `insert`; it is modelled as a `List` with membership, newest element first.
- The possibly non-terminating `loop` is modelled by a step function plus a
  fuel-indexed iteration; `none` means the fuel ran out before the loop
  returned.
- The demonstration state types use `value: i32`; inside all uses in this
  development the values stay within `0 ..= 12`, far from the i32 bounds, so
  `Int` without wrap-around is a faithful model.
-/

-- Shape and rotation, from src/main.rs ---------------------------------------

inductive Shape
  | Free
  | Ship
  | OneTL
  | OneTR
  | OneBL
  | OneBR
  | TwoDiagDown
  | TwoDiagUp
  | TwoHorT
  | TwoHorL
  | TwoHorB
  | TwoHorR
  | LargeEdgeT
  | LargeEdgeL
  | LargeEdgeB
  | LargeEdgeR
  | LargeCornerTL
  | LargeCornerTR
  | LargeCornerBL
  | LargeCornerBR
  deriving DecidableEq

def Shape.rotate (self : Shape) (clockwise : Bool) : Shape :=
  match self with
  | .Free => .Free
  | .Ship => .Ship
  | .OneTL => if clockwise then .OneTR else .OneBL
  | .OneTR => if clockwise then .OneBR else .OneTL
  | .OneBL => if clockwise then .OneTL else .OneBR
  | .OneBR => if clockwise then .OneBL else .OneTR
  | .TwoDiagDown => .TwoDiagUp
  | .TwoDiagUp => .TwoDiagDown
  | .TwoHorT => if clockwise then .TwoHorR else .TwoHorL
  | .TwoHorL => if clockwise then .TwoHorT else .TwoHorB
  | .TwoHorB => if clockwise then .TwoHorL else .TwoHorR
  | .TwoHorR => if clockwise then .TwoHorB else .TwoHorT
  | .LargeEdgeT => if clockwise then .LargeEdgeR else .LargeEdgeL
  | .LargeEdgeL => if clockwise then .LargeEdgeT else .LargeEdgeB
  | .LargeEdgeB => if clockwise then .LargeEdgeL else .LargeEdgeR
  | .LargeEdgeR => if clockwise then .LargeEdgeB else .LargeEdgeT
  | .LargeCornerTL => if clockwise then .LargeCornerTR else .LargeCornerBL
  | .LargeCornerTR => if clockwise then .LargeCornerBR else .LargeCornerTL
  | .LargeCornerBL => if clockwise then .LargeCornerTL else .LargeCornerBR
  | .LargeCornerBR => if clockwise then .LargeCornerBL else .LargeCornerTR

-- Backtracking engine, from src/backtracking.rs -------------------------------

namespace Backtracking

/-- The `State` trait: terminal test, successor generation, display label. -/
structure StateImpl (α : Type) where
  to_string : α → String
  is_final : α → Bool
  get_possible_successors : α → List α

/-- One stack frame of the search: a state plus its not-yet-tried successors
(stored reversed, so the head is the next one `Vec::pop` would return). -/
structure Attempt (α : Type) where
  state : α
  successors_to_try : List α
  deriving DecidableEq

inductive Verbosity
  | Quiet
  | Info
  | Trace
  deriving DecidableEq

/-- The local mutable state of `get_sequence_to_final_state`: the attempts
stack (head = deepest) and the dead-end set. -/
structure SearchState (α : Type) where
  attempts : List (Attempt α)
  dead_ends : List α
  deriving DecidableEq

/-- Outcome of one iteration of the `loop`: return a result, continue with a
new state, or hit the `assert!(false)` branch. -/
inductive StepOut (α : Type)
  | done (result : Except String (List α))
  | next (st : SearchState α)
  | panicked

def exhausted_message : String :=
  "No suitable chain of states found to final state; all possibilities exhausted."

/-- One iteration of the `loop` in `get_sequence_to_final_state`, together
with the lines this iteration prints. -/
def step [DecidableEq α] (sys : StateImpl α) (verbosity : Verbosity)
    (st : SearchState α) : StepOut α × List String :=
  match st.attempts with
  | [] =>
    (.done (.error exhausted_message), [])
  | current :: deeper =>
    match current.successors_to_try with
    | successor :: remaining =>
      if sys.is_final successor then
        (.done (.ok (((Attempt.mk successor [] :: Attempt.mk current.state remaining :: deeper).map
            Attempt.state).reverse)),
         if verbosity = .Trace then
           ["Going to evaluate successors of " ++ sys.to_string successor ++ "."] else [])
      else if (∃ a ∈ Attempt.mk current.state remaining :: deeper, a.state = successor) ∨
          successor ∈ st.dead_ends then
        (.next ⟨Attempt.mk current.state remaining :: deeper, st.dead_ends⟩,
         (if verbosity = .Trace then
           ["Going to evaluate successors of " ++ sys.to_string successor ++ "."] else []) ++
         (if verbosity = .Trace then
           [sys.to_string successor ++ " has been tried before, not considering it."] else []))
      else
        (.next ⟨Attempt.mk successor ((sys.get_possible_successors successor).reverse) ::
            Attempt.mk current.state remaining :: deeper, st.dead_ends⟩,
         if verbosity = .Trace then
           ["Going to evaluate successors of " ++ sys.to_string successor ++ "."] else [])
    | [] =>
      match st.attempts with
      | attempt :: rest =>
        (.next ⟨rest, attempt.state :: st.dead_ends⟩,
         (if verbosity ≠ .Quiet then
           ["Backtracking from " ++ sys.to_string attempt.state] else []) ++
         (if verbosity = .Trace then
           ["  Known dead ends: " ++
             String.intercalate ", " ((attempt.state :: st.dead_ends).map sys.to_string)] else []))
      | [] =>
        (.panicked, [])

/-- Run the loop for at most `fuel` iterations, collecting printed lines.
`none` as first component means the fuel was not sufficient. -/
def run [DecidableEq α] (sys : StateImpl α) (verbosity : Verbosity) :
    Nat → SearchState α → Option (Except String (List α)) × List String
  | 0, _ => (none, [])
  | fuel + 1, st =>
    match step sys verbosity st with
    | (.done r, out) => (some r, out)
    | (.next st', out) =>
      let rest := run sys verbosity fuel st'
      (rest.1, out ++ rest.2)
    | (.panicked, out) => (none, out)

/-- The state after the initialization of `attempts` and `dead_ends`:
`get_possible_successors` is invoked on the initial state here. -/
def initState [DecidableEq α] (sys : StateImpl α) (initial : α) : SearchState α :=
  ⟨[Attempt.mk initial ((sys.get_possible_successors initial).reverse)], []⟩

/-- `get_sequence_to_final_state` (the spec's `find_path`), fuel-indexed. -/
def get_sequence_to_final_state [DecidableEq α] (sys : StateImpl α) (fuel : Nat)
    (initial : α) (verbosity : Verbosity) : Option (Except String (List α)) × List String :=
  run sys verbosity fuel (initState sys initial)

/-- The search state after `n` continue-iterations of the loop (`none` once
the loop has returned). -/
def iterate [DecidableEq α] (sys : StateImpl α) (verbosity : Verbosity) :
    Nat → SearchState α → Option (SearchState α)
  | 0, st => some st
  | n + 1, st =>
    match (step sys verbosity st).1 with
    | .next st' => iterate sys verbosity n st'
    | _ => none

/-- Instrumentation: the states on which this iteration invokes
`get_possible_successors` (only the push branch does). -/
def stepExpanded [DecidableEq α] (sys : StateImpl α) (st : SearchState α) : List α :=
  match st.attempts with
  | [] => []
  | current :: deeper =>
    match current.successors_to_try with
    | successor :: remaining =>
      if sys.is_final successor then []
      else if (∃ a ∈ Attempt.mk current.state remaining :: deeper, a.state = successor) ∨
          successor ∈ st.dead_ends then []
      else [successor]
    | [] => []

/-- Instrumentation: states on which `get_possible_successors` is invoked
during at most `fuel` loop iterations, in invocation order. -/
def runExpanded [DecidableEq α] (sys : StateImpl α) (verbosity : Verbosity) :
    Nat → SearchState α → List α
  | 0, _ => []
  | fuel + 1, st =>
    match (step sys verbosity st).1 with
    | .next st' => stepExpanded sys st ++ runExpanded sys verbosity fuel st'
    | _ => stepExpanded sys st

/-- Instrumentation: the candidate successor this iteration pops and examines
(if any). -/
def stepExamined [DecidableEq α] (st : SearchState α) : List α :=
  match st.attempts with
  | [] => []
  | current :: _ =>
    match current.successors_to_try with
    | successor :: _ => [successor]
    | [] => []

/-- Instrumentation: candidates examined during at most `fuel` loop
iterations, in examination order. -/
def runExamined [DecidableEq α] (sys : StateImpl α) (verbosity : Verbosity) :
    Nat → SearchState α → List α
  | 0, _ => []
  | fuel + 1, st =>
    match (step sys verbosity st).1 with
    | .next st' => stepExamined st ++ runExamined sys verbosity fuel st'
    | _ => stepExamined st

/-- Instrumentation: the state this iteration pops off the stack into the
dead-end set (the backtrack arm only; these are the states the Rust code
reports with its "Backtracking from ..." line). -/
def stepBacktracked (st : SearchState α) : List α :=
  match st.attempts with
  | [] => []
  | current :: _ =>
    match current.successors_to_try with
    | _ :: _ => []
    | [] => [current.state]

/-- Instrumentation: states inserted into the dead-end set during at most
`fuel` loop iterations, in insertion order. -/
def runBacktracked [DecidableEq α] (sys : StateImpl α) (verbosity : Verbosity) :
    Nat → SearchState α → List α
  | 0, _ => []
  | fuel + 1, st =>
    match (step sys verbosity st).1 with
    | .next st' => stepBacktracked st ++ runBacktracked sys verbosity fuel st'
    | _ => stepBacktracked st

/-- Shape of the bottom (root) of the attempts stack during a search whose
initial state has the successor list [A, B]: the root attempt holds the
initial state with pending [B, A] (nothing popped yet), [A] (B popped first —
then any attempt directly above the root is B's), or [] (A popped, which
happens only once B's branch has been exhausted into the dead-end set, or B
was the initial state itself and never formed a branch). -/
def RootPhase (initial A B : α) (st : SearchState α) : Prop :=
  st.attempts = [] ∨
  st.attempts = [Attempt.mk initial [B, A]] ∨
  (∃ l, st.attempts = l ++ [Attempt.mk initial [A]] ∧
    ((∃ l' lastA, l = l' ++ [lastA] ∧ lastA.state = B) ∨
      (l = [] ∧ (B = initial ∨ B ∈ st.dead_ends)))) ∨
  (∃ l, st.attempts = l ++ [Attempt.mk initial []] ∧
    (B = initial ∨ B ∈ st.dead_ends))

-- Demonstration state types ---------------------------------------------------

/-- `JumpingCounter` from src/backtracking.rs: counts up by 1 or 2 while the
value is in `0 ..= 10`, terminal at value 4. -/
def jumpingCounter : StateImpl Int where
  to_string := fun v => toString v
  is_final := fun v => v == 4
  get_possible_successors := fun v =>
    if 0 ≤ v ∧ v ≤ 10 then [v + 1, v + 2] else []

/-- A consumer state type with a 2-cycle reaching back to the (terminal)
initial state: successors of 0 are [1], successors of 1 are [0]; 0 is
terminal.  This is the spec's concrete scenario 4 shape of input. -/
def loopBack : StateImpl Int where
  to_string := fun v => toString v
  is_final := fun v => v == 0
  get_possible_successors := fun v =>
    if v == 0 then [1] else if v == 1 then [0] else []

/-- A consumer state type where every state is terminal and has no
successors. -/
def instantlyDone : StateImpl Int where
  to_string := fun v => toString v
  is_final := fun _ => true
  get_possible_successors := fun _ => []

/-- A consumer state type whose initial state 0 has the two successors
[1, 2] in that order, where 1 leads to the terminal state 11 and 2 leads to
the distinct terminal state 12. -/
def bothLead : StateImpl Int where
  to_string := fun v => toString v
  is_final := fun v => v == 11 || v == 12
  get_possible_successors := fun v =>
    if v == 0 then [1, 2] else if v == 1 then [11] else if v == 2 then [12] else []

-- Characterization of the five loop branches ----------------------------------

theorem step_fst_nil [DecidableEq α] (sys : StateImpl α) (v : Verbosity)
    (st : SearchState α) (h : st.attempts = []) :
    (step sys v st).1 = .done (.error exhausted_message) := by
  simp [step, h]

theorem step_fst_found [DecidableEq α] (sys : StateImpl α) (v : Verbosity)
    (st : SearchState α) (current : Attempt α) (deeper : List (Attempt α))
    (successor : α) (remaining : List α)
    (h : st.attempts = current :: deeper)
    (hp : current.successors_to_try = successor :: remaining)
    (hf : sys.is_final successor = true) :
    (step sys v st).1 = .done (.ok (((Attempt.mk successor [] ::
      Attempt.mk current.state remaining :: deeper).map Attempt.state).reverse)) := by
  simp [step, h, hp, hf]

theorem step_fst_skip [DecidableEq α] (sys : StateImpl α) (v : Verbosity)
    (st : SearchState α) (current : Attempt α) (deeper : List (Attempt α))
    (successor : α) (remaining : List α)
    (h : st.attempts = current :: deeper)
    (hp : current.successors_to_try = successor :: remaining)
    (hf : sys.is_final successor = false)
    (hdup : (∃ a ∈ Attempt.mk current.state remaining :: deeper, a.state = successor) ∨
      successor ∈ st.dead_ends) :
    (step sys v st).1 = .next ⟨Attempt.mk current.state remaining :: deeper, st.dead_ends⟩ := by
  simp only [step, h, hp, hf]
  rw [if_neg (by simp), if_pos hdup]

theorem step_fst_push [DecidableEq α] (sys : StateImpl α) (v : Verbosity)
    (st : SearchState α) (current : Attempt α) (deeper : List (Attempt α))
    (successor : α) (remaining : List α)
    (h : st.attempts = current :: deeper)
    (hp : current.successors_to_try = successor :: remaining)
    (hf : sys.is_final successor = false)
    (hdup : ¬ ((∃ a ∈ Attempt.mk current.state remaining :: deeper, a.state = successor) ∨
      successor ∈ st.dead_ends)) :
    (step sys v st).1 = .next ⟨Attempt.mk successor ((sys.get_possible_successors successor).reverse) ::
      Attempt.mk current.state remaining :: deeper, st.dead_ends⟩ := by
  simp only [step, h, hp, hf]
  rw [if_neg (by simp), if_neg hdup]

theorem step_fst_backtrack [DecidableEq α] (sys : StateImpl α) (v : Verbosity)
    (st : SearchState α) (current : Attempt α) (deeper : List (Attempt α))
    (h : st.attempts = current :: deeper)
    (hp : current.successors_to_try = []) :
    (step sys v st).1 = .next ⟨deeper, current.state :: st.dead_ends⟩ := by
  simp [step, h, hp]

/-- Helper: the `assert!(false)` branch is unreachable — whenever the
backtrack branch pops, the stack has just been seen non-empty. -/
theorem step_no_panic [DecidableEq α] (sys : StateImpl α) (v : Verbosity)
    (st : SearchState α) : (step sys v st).1 ≠ .panicked := by
  rcases hA : st.attempts with _ | ⟨current, deeper⟩
  · rw [step_fst_nil sys v st hA]
    intro hx
    exact StepOut.noConfusion hx
  · rcases hp : current.successors_to_try with _ | ⟨successor, remaining⟩
    · rw [step_fst_backtrack sys v st current deeper hA hp]
      intro hx
      exact StepOut.noConfusion hx
    · rcases hf : sys.is_final successor with _ | _
      · by_cases hdup : (∃ a ∈ Attempt.mk current.state remaining :: deeper, a.state = successor) ∨
          successor ∈ st.dead_ends
        · rw [step_fst_skip sys v st current deeper successor remaining hA hp hf hdup]
          intro hx
          exact StepOut.noConfusion hx
        · rw [step_fst_push sys v st current deeper successor remaining hA hp hf hdup]
          intro hx
          exact StepOut.noConfusion hx
      · rw [step_fst_found sys v st current deeper successor remaining hA hp hf]
        intro hx
        exact StepOut.noConfusion hx

/-- Unfolding of `run` at successor fuel, projected on the result. -/
theorem run_succ_fst [DecidableEq α] (sys : StateImpl α) (v : Verbosity)
    (fuel : Nat) (st : SearchState α) :
    (run sys v (fuel + 1) st).1 =
      match (step sys v st).1 with
      | .done r => some r
      | .next st' => (run sys v fuel st').1
      | .panicked => none := by
  rcases hs : step sys v st with ⟨o, out⟩
  cases o <;> simp [run, hs]

-- The search-loop invariant ----------------------------------------------------

/-- Invariant holding at every iteration of the search loop: the states on the
attempts stack are pairwise distinct, disjoint from the dead-end set, each one
(but the root) is a successor of its parent, the root is the initial state,
every pending candidate really is a successor of its attempt's state, and only
the initial state can be terminal while on the stack. -/
structure SearchInv (sys : StateImpl α) (initial : α) (st : SearchState α) : Prop where
  nodup : (st.attempts.map Attempt.state).Nodup
  fresh : ∀ s ∈ st.attempts.map Attempt.state, s ∉ st.dead_ends
  links : List.Chain' (fun x y => x ∈ sys.get_possible_successors y)
    (st.attempts.map Attempt.state)
  root : (st.attempts.map Attempt.state).getLast? = some initial ∨ st.attempts = []
  pend : ∀ a ∈ st.attempts, ∀ s ∈ a.successors_to_try, s ∈ sys.get_possible_successors a.state
  nonterm : ∀ s ∈ st.attempts.map Attempt.state, sys.is_final s = true → s = initial

theorem searchInv_init [DecidableEq α] (sys : StateImpl α) (initial : α) :
    SearchInv sys initial (initState sys initial) := by
  refine ⟨?_, ?_, ?_, ?_, ?_, ?_⟩
  · simp [initState]
  · simp [initState]
  · simp [initState]
  · simp [initState]
  · intro a ha s hs
    simp only [initState, List.mem_singleton] at ha
    subst ha
    simpa using List.mem_reverse.mp hs
  · simp [initState]

theorem searchInv_step [DecidableEq α] (sys : StateImpl α) (initial : α)
    (v : Verbosity) (st st' : SearchState α)
    (hInv : SearchInv sys initial st) (hs : (step sys v st).1 = .next st') :
    SearchInv sys initial st' := by
  rcases hA : st.attempts with _ | ⟨current, deeper⟩
  · rw [step_fst_nil sys v st hA] at hs
    exact absurd hs (by intro hx; exact StepOut.noConfusion hx)
  · have hmap : st.attempts.map Attempt.state =
        current.state :: deeper.map Attempt.state := by rw [hA]; rfl
    have hcur_mem : current ∈ st.attempts := by rw [hA]; exact List.mem_cons_self _ _
    rcases hp : current.successors_to_try with _ | ⟨successor, remaining⟩
    · -- backtrack branch
      rw [step_fst_backtrack sys v st current deeper hA hp] at hs
      injection hs with h
      subst h
      have hnodup := hmap ▸ hInv.nodup
      refine ⟨?_, ?_, ?_, ?_, ?_, ?_⟩
      · exact (List.nodup_cons.mp hnodup).2
      · intro s hsmem hscontra
        rcases List.mem_cons.mp hscontra with hq | hq
        · exact (List.nodup_cons.mp hnodup).1 (hq ▸ hsmem)
        · exact hInv.fresh s (by rw [hmap]; exact List.mem_cons_of_mem _ hsmem) hq
      · exact (List.chain'_cons'.mp (hmap ▸ hInv.links)).2
      · rcases hd : deeper with _ | ⟨d, ds⟩
        · exact Or.inr rfl
        · left
          rcases hInv.root with hr | hr
          · rw [hmap, hd] at hr
            simpa [List.getLast?_cons_cons] using hr
          · rw [hA] at hr
            exact absurd hr (by simp)
      · intro a ha s hsmem
        exact hInv.pend a (by rw [hA]; exact List.mem_cons_of_mem _ ha) s hsmem
      · intro s hsmem hfin
        exact hInv.nonterm s (by rw [hmap]; exact List.mem_cons_of_mem _ hsmem) hfin
    · rcases hf : sys.is_final successor with _ | _
      · -- candidate is not terminal
        by_cases hdup : (∃ a ∈ Attempt.mk current.state remaining :: deeper,
            a.state = successor) ∨ successor ∈ st.dead_ends
        · -- skip branch: already on the stack or a known dead end
          rw [step_fst_skip sys v st current deeper successor remaining hA hp hf hdup] at hs
          injection hs with h
          subst h
          have hmap' : (Attempt.mk current.state remaining :: deeper).map Attempt.state =
              st.attempts.map Attempt.state := by rw [hA]; rfl
          refine ⟨?_, ?_, ?_, ?_, ?_, ?_⟩
          · rw [hmap']; exact hInv.nodup
          · intro s hsmem; rw [hmap'] at hsmem; exact hInv.fresh s hsmem
          · rw [hmap']; exact hInv.links
          · left
            rw [hmap']
            rcases hInv.root with hr | hr
            · exact hr
            · rw [hA] at hr; exact absurd hr (by simp)
          · intro a ha s hsmem
            rcases List.mem_cons.mp ha with hq | hq
            · subst hq
              have : s ∈ current.successors_to_try := by
                rw [hp]; exact List.mem_cons_of_mem _ hsmem
              exact hInv.pend current hcur_mem s this
            · exact hInv.pend a (by rw [hA]; exact List.mem_cons_of_mem _ hq) s hsmem
          · intro s hsmem hfin
            rw [hmap'] at hsmem
            exact hInv.nonterm s hsmem hfin
        · -- push branch: a fresh state is entered
          rw [step_fst_push sys v st current deeper successor remaining hA hp hf hdup] at hs
          injection hs with h
          subst h
          push_neg at hdup
          obtain ⟨h1, h2⟩ := hdup
          have hsucc_mem : successor ∈ sys.get_possible_successors current.state := by
            refine hInv.pend current hcur_mem successor ?_
            rw [hp]; exact List.mem_cons_self _ _
          have hnot : successor ∉ current.state :: deeper.map Attempt.state := by
            intro hmem
            rcases List.mem_cons.mp hmem with hq | hq
            · exact h1 (Attempt.mk current.state remaining) (List.mem_cons_self _ _) hq.symm
            · obtain ⟨a, ha, hae⟩ := List.mem_map.mp hq
              exact h1 a (List.mem_cons_of_mem _ ha) hae
          refine ⟨?_, ?_, ?_, ?_, ?_, ?_⟩
          · refine List.nodup_cons.mpr ⟨hnot, ?_⟩
            have := hmap ▸ hInv.nodup
            simpa using this
          · intro s hsmem hscontra
            rcases List.mem_cons.mp hsmem with hq | hq
            · subst hq; exact h2 hscontra
            · exact hInv.fresh s (by rw [hmap]; simpa using hq) hscontra
          · refine List.chain'_cons'.mpr ⟨?_, ?_⟩
            · intro y hy
              simp only [List.map_cons, List.head?_cons, Option.mem_def,
                Option.some.injEq] at hy
              subst hy
              exact hsucc_mem
            · have := hmap ▸ hInv.links
              simpa using this
          · left
            rcases hInv.root with hr | hr
            · rw [hmap] at hr
              simpa [List.getLast?_cons_cons] using hr
            · rw [hA] at hr; exact absurd hr (by simp)
          · intro a ha s hsmem
            rcases List.mem_cons.mp ha with hq | hq
            · subst hq
              simpa using List.mem_reverse.mp hsmem
            · rcases List.mem_cons.mp hq with hq' | hq'
              · subst hq'
                have : s ∈ current.successors_to_try := by
                  rw [hp]; exact List.mem_cons_of_mem _ hsmem
                exact hInv.pend current hcur_mem s this
              · exact hInv.pend a (by rw [hA]; exact List.mem_cons_of_mem _ hq') s hsmem
          · intro s hsmem hfin
            rcases List.mem_cons.mp hsmem with hq | hq
            · rw [hq] at hfin
              rw [hf] at hfin
              exact absurd hfin (by simp)
            · exact hInv.nonterm s (by rw [hmap]; simpa using hq) hfin
      · -- candidate is terminal: the loop returns, no next state
        rw [step_fst_found sys v st current deeper successor remaining hA hp hf] at hs
        exact absurd hs (by intro hx; exact StepOut.noConfusion hx)

/-- The dead-end set only grows across one loop iteration. -/
theorem step_dead_mono [DecidableEq α] (sys : StateImpl α) (v : Verbosity)
    (st st' : SearchState α) (hs : (step sys v st).1 = .next st') :
    st.dead_ends ⊆ st'.dead_ends := by
  rcases hA : st.attempts with _ | ⟨current, deeper⟩
  · rw [step_fst_nil sys v st hA] at hs
    exact absurd hs (by intro hx; exact StepOut.noConfusion hx)
  · rcases hp : current.successors_to_try with _ | ⟨successor, remaining⟩
    · rw [step_fst_backtrack sys v st current deeper hA hp] at hs
      injection hs with h
      subst h
      exact List.subset_cons_self _ _
    · rcases hf : sys.is_final successor with _ | _
      · by_cases hdup : (∃ a ∈ Attempt.mk current.state remaining :: deeper,
            a.state = successor) ∨ successor ∈ st.dead_ends
        · rw [step_fst_skip sys v st current deeper successor remaining hA hp hf hdup] at hs
          injection hs with h
          subst h
          exact fun x hx => hx
        · rw [step_fst_push sys v st current deeper successor remaining hA hp hf hdup] at hs
          injection hs with h
          subst h
          exact fun x hx => hx
      · rw [step_fst_found sys v st current deeper successor remaining hA hp hf] at hs
        exact absurd hs (by intro hx; exact StepOut.noConfusion hx)

-- Properties of a successfully returned path -----------------------------------

theorem run_ok_spec [DecidableEq α] (sys : StateImpl α) (v : Verbosity) (initial : α)
    (fuel : Nat) :
    ∀ (st : SearchState α) (p : List α),
      SearchInv sys initial st → (run sys v fuel st).1 = some (.ok p) →
      p.head? = some initial ∧ (p.map sys.is_final).getLast? = some true ∧
      List.Chain' (fun x y => y ∈ sys.get_possible_successors x) p ∧
      (sys.is_final initial = false → p.Nodup) := by
  induction fuel with
  | zero =>
    intro st p _ h
    exact absurd h (by simp [run])
  | succ fuel ih =>
    intro st p hInv h
    rw [run_succ_fst] at h
    rcases hA : st.attempts with _ | ⟨current, deeper⟩
    · rw [step_fst_nil sys v st hA] at h
      simp at h
    · rcases hp : current.successors_to_try with _ | ⟨successor, remaining⟩
      · rw [step_fst_backtrack sys v st current deeper hA hp] at h
        exact ih _ p (searchInv_step sys initial v st _ hInv
          (step_fst_backtrack sys v st current deeper hA hp)) h
      · rcases hf : sys.is_final successor with _ | _
        · by_cases hdup : (∃ a ∈ Attempt.mk current.state remaining :: deeper,
              a.state = successor) ∨ successor ∈ st.dead_ends
          · rw [step_fst_skip sys v st current deeper successor remaining hA hp hf hdup] at h
            exact ih _ p (searchInv_step sys initial v st _ hInv
              (step_fst_skip sys v st current deeper successor remaining hA hp hf hdup)) h
          · rw [step_fst_push sys v st current deeper successor remaining hA hp hf hdup] at h
            exact ih _ p (searchInv_step sys initial v st _ hInv
              (step_fst_push sys v st current deeper successor remaining hA hp hf hdup)) h
        · rw [step_fst_found sys v st current deeper successor remaining hA hp hf] at h
          have hpeq : p = ((Attempt.mk successor [] :: Attempt.mk current.state remaining ::
              deeper).map Attempt.state).reverse := by
            have h' : some (Except.ok (((Attempt.mk successor [] :: Attempt.mk current.state
                remaining :: deeper).map Attempt.state).reverse) :
                Except String (List α)) = some (.ok p) := h
            injection h' with h''
            injection h'' with h3
            exact h3.symm
          subst hpeq
          have hmap : st.attempts.map Attempt.state =
              current.state :: deeper.map Attempt.state := by rw [hA]; rfl
          have hpath : ((Attempt.mk successor [] :: Attempt.mk current.state remaining ::
              deeper).map Attempt.state) = successor :: st.attempts.map Attempt.state := by
            rw [hA]; rfl
          rw [hpath]
          have hroot : (st.attempts.map Attempt.state).getLast? = some initial := by
            rcases hInv.root with hr | hr
            · exact hr
            · rw [hA] at hr; exact absurd hr (by simp)
          have hsucc_mem : successor ∈ sys.get_possible_successors current.state := by
            refine hInv.pend current ?_ successor ?_
            · rw [hA]; exact List.mem_cons_self _ _
            · rw [hp]; exact List.mem_cons_self _ _
          refine ⟨?_, ?_, ?_, ?_⟩
          · rw [List.head?_reverse, hmap, List.getLast?_cons_cons]
            rw [hmap] at hroot
            exact hroot
          · rw [List.map_reverse, List.getLast?_reverse]
            simp [hf]
          · rw [List.chain'_reverse]
            refine List.chain'_cons'.mpr ⟨?_, ?_⟩
            · intro y hy
              rw [hmap] at hy
              simp only [List.head?_cons, Option.mem_def, Option.some.injEq] at hy
              subst hy
              exact hsucc_mem
            · exact hInv.links
          · intro hfin0
            rw [List.nodup_reverse]
            refine List.nodup_cons.mpr ⟨?_, hInv.nodup⟩
            intro hmemS
            have hini := hInv.nonterm successor hmemS hf
            rw [hini, hfin0] at hf
            exact absurd hf (by simp)

-- Termination on finite guarded state spaces -----------------------------------

/-- Total number of pending candidate successors on the stack. -/
def pendingTotal (st : SearchState α) : Nat :=
  (st.attempts.map (fun a => a.successors_to_try.length)).sum

/-- States of the finite space `R` that are neither on the stack nor known
dead ends. -/
def unexplored [DecidableEq α] (R : Finset α) (st : SearchState α) : Finset α :=
  R.filter (fun s => s ∉ st.attempts.map Attempt.state ∧ s ∉ st.dead_ends)

/-- A bound (strictly) exceeding the successor-list length of every state of
`R`. -/
def succBound [DecidableEq α] (sys : StateImpl α) (R : Finset α) : Nat :=
  (R.sum fun s => (sys.get_possible_successors s).length) + 1

/-- Ranking function for the search loop over a finite closed space `R`:
strictly decreases on every continue-iteration. -/
def searchMeasure [DecidableEq α] (sys : StateImpl α) (R : Finset α)
    (st : SearchState α) : Nat :=
  (succBound sys R + 1) * (unexplored R st).card + pendingTotal st + st.attempts.length

/-- All stack states belong to `R`. -/
def stackInR (R : Finset α) (st : SearchState α) : Prop :=
  ∀ s ∈ st.attempts.map Attempt.state, s ∈ R

theorem measure_decrease [DecidableEq α] (sys : StateImpl α) (v : Verbosity)
    (R : Finset α) (initial : α) (st st' : SearchState α)
    (hcl : ∀ s ∈ R, ∀ t ∈ sys.get_possible_successors s, t ∈ R)
    (hin : stackInR R st) (hInv : SearchInv sys initial st)
    (hs : (step sys v st).1 = .next st') :
    stackInR R st' ∧ searchMeasure sys R st' < searchMeasure sys R st := by
  rcases hA : st.attempts with _ | ⟨current, deeper⟩
  · rw [step_fst_nil sys v st hA] at hs
    exact absurd hs (by intro hx; exact StepOut.noConfusion hx)
  · have hmap : st.attempts.map Attempt.state =
        current.state :: deeper.map Attempt.state := by rw [hA]; rfl
    have hcurR : current.state ∈ R := by
      refine hin current.state ?_
      rw [hmap]; exact List.mem_cons_self _ _
    rcases hp : current.successors_to_try with _ | ⟨successor, remaining⟩
    · -- backtrack branch
      rw [step_fst_backtrack sys v st current deeper hA hp] at hs
      injection hs with h
      subst h
      constructor
      · intro s hsmem
        exact hin s (by rw [hmap]; exact List.mem_cons_of_mem _ hsmem)
      · have hU : unexplored R ⟨deeper, current.state :: st.dead_ends⟩ = unexplored R st := by
          ext x
          simp only [unexplored, Finset.mem_filter, hmap, List.mem_cons, not_or]
          tauto
        have hP : pendingTotal (⟨deeper, current.state :: st.dead_ends⟩ : SearchState α) =
            pendingTotal st := by
          simp [pendingTotal, hA, hp]
        have hL : st.attempts.length = deeper.length + 1 := by rw [hA]; rfl
        simp only [searchMeasure, hU, hP, hL]
        omega
    · rcases hf : sys.is_final successor with _ | _
      · by_cases hdup : (∃ a ∈ Attempt.mk current.state remaining :: deeper,
            a.state = successor) ∨ successor ∈ st.dead_ends
        · -- skip branch
          rw [step_fst_skip sys v st current deeper successor remaining hA hp hf hdup] at hs
          injection hs with h
          subst h
          have hl : (Attempt.mk current.state remaining :: deeper).map Attempt.state =
              st.attempts.map Attempt.state := by rw [hA]; rfl
          constructor
          · intro s hsmem
            rw [hl] at hsmem
            exact hin s hsmem
          · have hU : unexplored R ⟨Attempt.mk current.state remaining :: deeper,
                st.dead_ends⟩ = unexplored R st := by
              unfold unexplored
              simp only [hl]
            have hP : pendingTotal st =
                pendingTotal (⟨Attempt.mk current.state remaining :: deeper,
                  st.dead_ends⟩ : SearchState α) + 1 := by
              simp [pendingTotal, hA, hp]
              omega
            have hL : st.attempts.length =
                (Attempt.mk current.state remaining :: deeper).length := by
              rw [hA]; rfl
            simp only [searchMeasure, hU]
            omega
        · -- push branch
          rw [step_fst_push sys v st current deeper successor remaining hA hp hf hdup] at hs
          injection hs with h
          subst h
          push_neg at hdup
          obtain ⟨h1, h2⟩ := hdup
          have hsucc_mem : successor ∈ sys.get_possible_successors current.state := by
            refine hInv.pend current ?_ successor ?_
            · rw [hA]; exact List.mem_cons_self _ _
            · rw [hp]; exact List.mem_cons_self _ _
          have hsuccR : successor ∈ R := hcl current.state hcurR successor hsucc_mem
          have hnotmem : successor ∉ st.attempts.map Attempt.state := by
            rw [hmap]
            intro hmem
            rcases List.mem_cons.mp hmem with hq | hq
            · exact h1 (Attempt.mk current.state remaining) (List.mem_cons_self _ _) hq.symm
            · obtain ⟨a, ha, hae⟩ := List.mem_map.mp hq
              exact h1 a (List.mem_cons_of_mem _ ha) hae
          have hl2 : (Attempt.mk successor ((sys.get_possible_successors successor).reverse) ::
              Attempt.mk current.state remaining :: deeper).map Attempt.state =
              successor :: current.state :: deeper.map Attempt.state := rfl
          constructor
          · intro s hsmem
            rw [hl2] at hsmem
            rcases List.mem_cons.mp hsmem with hq | hq
            · exact hq ▸ hsuccR
            · exact hin s (by rw [hmap]; exact hq)
          · have hUmem : successor ∈ unexplored R st := by
              simp only [unexplored, Finset.mem_filter]
              exact ⟨hsuccR, hnotmem, h2⟩
            have hU : unexplored R ⟨Attempt.mk successor
                ((sys.get_possible_successors successor).reverse) ::
                Attempt.mk current.state remaining :: deeper, st.dead_ends⟩ =
                (unexplored R st).erase successor := by
              ext x
              simp only [unexplored, Finset.mem_filter, Finset.mem_erase, hl2, hmap,
                List.mem_cons, not_or]
              tauto
            have hcard : (unexplored R st).card =
                (unexplored R ⟨Attempt.mk successor
                  ((sys.get_possible_successors successor).reverse) ::
                  Attempt.mk current.state remaining :: deeper, st.dead_ends⟩).card + 1 := by
              rw [hU, Finset.card_erase_of_mem hUmem]
              have hpos : 0 < (unexplored R st).card :=
                Finset.card_pos.mpr ⟨successor, hUmem⟩
              omega
            have hblen : (sys.get_possible_successors successor).length + 1 ≤
                succBound sys R := by
              unfold succBound
              have hsplit := Finset.add_sum_erase R
                (fun s => (sys.get_possible_successors s).length) hsuccR
              simp only at hsplit
              omega
            have hP : pendingTotal (⟨Attempt.mk successor
                ((sys.get_possible_successors successor).reverse) ::
                Attempt.mk current.state remaining :: deeper, st.dead_ends⟩ :
                SearchState α) + 1 =
                pendingTotal st + (sys.get_possible_successors successor).length := by
              simp [pendingTotal, hA, hp]
              omega
            have hL : (⟨Attempt.mk successor
                ((sys.get_possible_successors successor).reverse) ::
                Attempt.mk current.state remaining :: deeper, st.dead_ends⟩ :
                SearchState α).attempts.length = st.attempts.length + 1 := by
              simp [hA]
            unfold searchMeasure
            rw [hcard, Nat.mul_succ]
            omega
      · rw [step_fst_found sys v st current deeper successor remaining hA hp hf] at hs
        exact absurd hs (by intro hx; exact StepOut.noConfusion hx)

/-- Over a closed terminal-free space the loop can only continue or exhaust. -/
theorem step_guarded [DecidableEq α] (sys : StateImpl α) (v : Verbosity)
    (R : Finset α) (initial : α) (st : SearchState α)
    (hcl : ∀ s ∈ R, ∀ t ∈ sys.get_possible_successors s, t ∈ R)
    (hnf : ∀ s ∈ R, sys.is_final s = false)
    (hin : stackInR R st) (hInv : SearchInv sys initial st) :
    (step sys v st).1 = .done (.error exhausted_message) ∨
      ∃ st', (step sys v st).1 = .next st' := by
  rcases hA : st.attempts with _ | ⟨current, deeper⟩
  · exact Or.inl (step_fst_nil sys v st hA)
  · have hmap : st.attempts.map Attempt.state =
        current.state :: deeper.map Attempt.state := by rw [hA]; rfl
    have hcurR : current.state ∈ R := by
      refine hin current.state ?_
      rw [hmap]; exact List.mem_cons_self _ _
    rcases hp : current.successors_to_try with _ | ⟨successor, remaining⟩
    · exact Or.inr ⟨_, step_fst_backtrack sys v st current deeper hA hp⟩
    · have hsucc_mem : successor ∈ sys.get_possible_successors current.state := by
        refine hInv.pend current ?_ successor ?_
        · rw [hA]; exact List.mem_cons_self _ _
        · rw [hp]; exact List.mem_cons_self _ _
      have hf : sys.is_final successor = false :=
        hnf successor (hcl current.state hcurR successor hsucc_mem)
      by_cases hdup : (∃ a ∈ Attempt.mk current.state remaining :: deeper,
          a.state = successor) ∨ successor ∈ st.dead_ends
      · exact Or.inr ⟨_, step_fst_skip sys v st current deeper successor remaining hA hp hf hdup⟩
      · exact Or.inr ⟨_, step_fst_push sys v st current deeper successor remaining hA hp hf hdup⟩

theorem run_exhausts [DecidableEq α] (sys : StateImpl α) (v : Verbosity)
    (R : Finset α) (initial : α)
    (hcl : ∀ s ∈ R, ∀ t ∈ sys.get_possible_successors s, t ∈ R)
    (hnf : ∀ s ∈ R, sys.is_final s = false) :
    ∀ (n : Nat) (st : SearchState α), searchMeasure sys R st ≤ n →
      stackInR R st → SearchInv sys initial st →
      (run sys v (n + 1) st).1 = some (.error exhausted_message) := by
  intro n
  induction n with
  | zero =>
    intro st hm hin hInv
    have hempty : st.attempts = [] := by
      refine List.length_eq_zero.mp ?_
      unfold searchMeasure at hm
      omega
    rw [run_succ_fst, step_fst_nil sys v st hempty]
  | succ n ih =>
    intro st hm hin hInv
    rcases step_guarded sys v R initial st hcl hnf hin hInv with hdone | ⟨st', hnext⟩
    · rw [run_succ_fst, hdone]
    · rw [run_succ_fst, hnext]
      obtain ⟨hin', hlt⟩ :=
        measure_decrease sys v R initial st st' hcl hin hInv hnext
      exact ih st' (by omega) hin' (searchInv_step sys initial v st st' hInv hnext)

-- Iterated-loop lemmas ----------------------------------------------------------

theorem iterate_inv [DecidableEq α] (sys : StateImpl α) (v : Verbosity) (initial : α) :
    ∀ (n : Nat) (st st' : SearchState α),
      SearchInv sys initial st → iterate sys v n st = some st' →
      SearchInv sys initial st' := by
  intro n
  induction n with
  | zero =>
    intro st st' hInv h
    simp only [iterate, Option.some.injEq] at h
    exact h ▸ hInv
  | succ n ih =>
    intro st st' hInv h
    simp only [iterate] at h
    rcases hs : (step sys v st).1 with r | st2 | _
    · rw [hs] at h
      exact Option.noConfusion h
    · rw [hs] at h
      exact ih st2 st' (searchInv_step sys initial v st st2 hInv hs) h
    · rw [hs] at h
      exact Option.noConfusion h

theorem iterate_dead_mono [DecidableEq α] (sys : StateImpl α) (v : Verbosity) :
    ∀ (n : Nat) (st st' : SearchState α),
      iterate sys v n st = some st' → st.dead_ends ⊆ st'.dead_ends := by
  intro n
  induction n with
  | zero =>
    intro st st' h
    simp only [iterate, Option.some.injEq] at h
    exact h ▸ fun x hx => hx
  | succ n ih =>
    intro st st' h
    simp only [iterate] at h
    rcases hs : (step sys v st).1 with r | st2 | _
    · rw [hs] at h
      exact Option.noConfusion h
    · rw [hs] at h
      exact fun x hx => ih st2 st' h (step_dead_mono sys v st st2 hs hx)
    · rw [hs] at h
      exact Option.noConfusion h

theorem iterate_split [DecidableEq α] (sys : StateImpl α) (v : Verbosity) :
    ∀ (n k : Nat) (st : SearchState α),
      iterate sys v (n + k) st =
        match iterate sys v n st with
        | some s => iterate sys v k s
        | none => none := by
  intro n
  induction n with
  | zero =>
    intro k st
    rw [Nat.zero_add]
    simp [iterate]
  | succ n ih =>
    intro k st
    have harith : n + 1 + k = (n + k) + 1 := by omega
    rw [harith]
    simp only [iterate]
    rcases hs : (step sys v st).1 with r | st2 | _
    · rfl
    · exact ih k st2
    · rfl

-- No state is expanded twice ----------------------------------------------------

theorem runExpanded_nodup_aux [DecidableEq α] (sys : StateImpl α) (v : Verbosity) :
    ∀ (fuel : Nat) (st : SearchState α) (seen : List α),
      seen.Nodup →
      (∀ s ∈ seen, s ∈ st.attempts.map Attempt.state ∨ s ∈ st.dead_ends) →
      (seen ++ runExpanded sys v fuel st).Nodup := by
  intro fuel
  induction fuel with
  | zero =>
    intro st seen hseen _
    simpa [runExpanded] using hseen
  | succ fuel ih =>
    intro st seen hseen hcont
    simp only [runExpanded]
    rcases hA : st.attempts with _ | ⟨current, deeper⟩
    · rw [step_fst_nil sys v st hA]
      show (seen ++ stepExpanded sys st).Nodup
      simpa [stepExpanded, hA] using hseen
    · have hmap : st.attempts.map Attempt.state =
          current.state :: deeper.map Attempt.state := by rw [hA]; rfl
      rcases hp : current.successors_to_try with _ | ⟨successor, remaining⟩
      · -- backtrack: nothing expanded
        rw [step_fst_backtrack sys v st current deeper hA hp]
        have hexp : stepExpanded sys st = [] := by simp [stepExpanded, hA, hp]
        show (seen ++ (stepExpanded sys st ++
          runExpanded sys v fuel ⟨deeper, current.state :: st.dead_ends⟩)).Nodup
        rw [hexp, List.nil_append]
        refine ih _ seen hseen ?_
        intro s hsmem
        rcases hcont s hsmem with hq | hq
        · rw [hmap] at hq
          rcases List.mem_cons.mp hq with hq' | hq'
          · exact Or.inr (by rw [hq']; exact List.mem_cons_self _ _)
          · exact Or.inl hq'
        · exact Or.inr (List.mem_cons_of_mem _ hq)
      · rcases hf : sys.is_final successor with _ | _
        · by_cases hdup : (∃ a ∈ Attempt.mk current.state remaining :: deeper,
              a.state = successor) ∨ successor ∈ st.dead_ends
          · -- skip: nothing expanded
            rw [step_fst_skip sys v st current deeper successor remaining hA hp hf hdup]
            have hexp : stepExpanded sys st = [] := by
              simp only [stepExpanded, hA, hp, hf]
              rw [if_neg (by simp), if_pos hdup]
            show (seen ++ (stepExpanded sys st ++ runExpanded sys v fuel
              ⟨Attempt.mk current.state remaining :: deeper, st.dead_ends⟩)).Nodup
            rw [hexp, List.nil_append]
            refine ih _ seen hseen ?_
            intro s hsmem
            rcases hcont s hsmem with hq | hq
            · refine Or.inl ?_
              rw [hmap] at hq
              simpa using hq
            · exact Or.inr hq
          · -- push: exactly the fresh state is expanded
            rw [step_fst_push sys v st current deeper successor remaining hA hp hf hdup]
            have hexp : stepExpanded sys st = [successor] := by
              simp only [stepExpanded, hA, hp, hf]
              rw [if_neg (by simp), if_neg hdup]
            show (seen ++ (stepExpanded sys st ++ runExpanded sys v fuel
              ⟨Attempt.mk successor ((sys.get_possible_successors successor).reverse) ::
                Attempt.mk current.state remaining :: deeper, st.dead_ends⟩)).Nodup
            rw [hexp, ← List.append_assoc]
            push_neg at hdup
            obtain ⟨h1, h2⟩ := hdup
            have hnotmem : successor ∉ st.attempts.map Attempt.state := by
              rw [hmap]
              intro hmem
              rcases List.mem_cons.mp hmem with hq | hq
              · exact h1 (Attempt.mk current.state remaining) (List.mem_cons_self _ _) hq.symm
              · obtain ⟨a, ha, hae⟩ := List.mem_map.mp hq
                exact h1 a (List.mem_cons_of_mem _ ha) hae
            have hnew : successor ∉ seen := by
              intro hmem
              rcases hcont successor hmem with hq | hq
              · exact hnotmem hq
              · exact h2 hq
            refine ih _ (seen ++ [successor]) ?_ ?_
            · rw [List.nodup_append]
              refine ⟨hseen, List.nodup_singleton successor, ?_⟩
              intro x hx hx'
              rw [List.mem_singleton] at hx'
              exact hnew (hx' ▸ hx)
            · intro s hsmem
              rcases List.mem_append.mp hsmem with hq | hq
              · rcases hcont s hq with hq' | hq'
                · refine Or.inl ?_
                  rw [hmap] at hq'
                  simp only [List.map_cons, List.mem_cons]
                  rcases List.mem_cons.mp hq' with hc | hc
                  · exact Or.inr (Or.inl hc)
                  · exact Or.inr (Or.inr hc)
                · exact Or.inr hq'
              · rw [List.mem_singleton] at hq
                refine Or.inl ?_
                rw [hq]
                simp
        · -- found: the loop returns, nothing expanded
          rw [step_fst_found sys v st current deeper successor remaining hA hp hf]
          have hexp : stepExpanded sys st = [] := by
            simp [stepExpanded, hA, hp, hf]
          show (seen ++ stepExpanded sys st).Nodup
          rw [hexp]
          simpa using hseen

-- Verbosity only gates the printed lines ----------------------------------------

theorem step_fst_verbosity [DecidableEq α] (sys : StateImpl α) (v v' : Verbosity)
    (st : SearchState α) : (step sys v st).1 = (step sys v' st).1 := by
  rcases hA : st.attempts with _ | ⟨current, deeper⟩
  · rw [step_fst_nil sys v st hA, step_fst_nil sys v' st hA]
  · rcases hp : current.successors_to_try with _ | ⟨successor, remaining⟩
    · rw [step_fst_backtrack sys v st current deeper hA hp,
        step_fst_backtrack sys v' st current deeper hA hp]
    · rcases hf : sys.is_final successor with _ | _
      · by_cases hdup : (∃ a ∈ Attempt.mk current.state remaining :: deeper,
            a.state = successor) ∨ successor ∈ st.dead_ends
        · rw [step_fst_skip sys v st current deeper successor remaining hA hp hf hdup,
            step_fst_skip sys v' st current deeper successor remaining hA hp hf hdup]
        · rw [step_fst_push sys v st current deeper successor remaining hA hp hf hdup,
            step_fst_push sys v' st current deeper successor remaining hA hp hf hdup]
      · rw [step_fst_found sys v st current deeper successor remaining hA hp hf,
          step_fst_found sys v' st current deeper successor remaining hA hp hf]

theorem run_fst_verbosity [DecidableEq α] (sys : StateImpl α) (v v' : Verbosity) :
    ∀ (fuel : Nat) (st : SearchState α),
      (run sys v fuel st).1 = (run sys v' fuel st).1 := by
  intro fuel
  induction fuel with
  | zero =>
    intro st
    simp [run]
  | succ fuel ih =>
    intro st
    rw [run_succ_fst, run_succ_fst, step_fst_verbosity sys v v' st]
    rcases hs : (step sys v' st).1 with r | st2 | _
    · rfl
    · exact ih st2
    · rfl

-- LIFO exploration order --------------------------------------------------------

theorem runBacktracked_succ_next [DecidableEq α] (sys : StateImpl α) (v : Verbosity)
    (fuel : Nat) (st st' : SearchState α) (hs : (step sys v st).1 = .next st') :
    runBacktracked sys v (fuel + 1) st =
      stepBacktracked st ++ runBacktracked sys v fuel st' := by
  simp only [runBacktracked]
  rw [hs]

/-- Anything in the dead-end set after a continue-iteration was either just
backtracked or already a dead end. -/
theorem step_dead_sub [DecidableEq α] (sys : StateImpl α) (v : Verbosity)
    (st st' : SearchState α) (hs : (step sys v st).1 = .next st') :
    ∀ x ∈ st'.dead_ends, x ∈ stepBacktracked st ∨ x ∈ st.dead_ends := by
  rcases hA : st.attempts with _ | ⟨current, deeper⟩
  · rw [step_fst_nil sys v st hA] at hs
    exact absurd hs (by intro hx; exact StepOut.noConfusion hx)
  · rcases hp : current.successors_to_try with _ | ⟨successor, remaining⟩
    · rw [step_fst_backtrack sys v st current deeper hA hp] at hs
      injection hs with h
      subst h
      intro x hx
      rcases List.mem_cons.mp hx with hq | hq
      · left
        simp [stepBacktracked, hA, hp, hq]
      · exact Or.inr hq
    · rcases hf : sys.is_final successor with _ | _
      · by_cases hdup : (∃ a ∈ Attempt.mk current.state remaining :: deeper,
            a.state = successor) ∨ successor ∈ st.dead_ends
        · rw [step_fst_skip sys v st current deeper successor remaining hA hp hf hdup] at hs
          injection hs with h
          subst h
          exact fun x hx => Or.inr hx
        · rw [step_fst_push sys v st current deeper successor remaining hA hp hf hdup] at hs
          injection hs with h
          subst h
          exact fun x hx => Or.inr hx
      · rw [step_fst_found sys v st current deeper successor remaining hA hp hf] at hs
        exact absurd hs (by intro hx; exact StepOut.noConfusion hx)

/-- The head of a returned path is the state of the bottom (root) attempt. -/
theorem found_head (s : α) (current : Attempt α) (rem : List α)
    (deeper l : List (Attempt α)) (rootA : Attempt α)
    (hdecomp : current :: deeper = l ++ [rootA]) :
    (((Attempt.mk s [] :: Attempt.mk current.state rem :: deeper).map
      Attempt.state).reverse).head? = some rootA.state := by
  have h2 := congrArg (List.map Attempt.state) hdecomp
  simp only [List.map_cons, List.map_append, List.map_nil] at h2
  show ((s :: (current :: deeper).map Attempt.state).reverse).head? = some rootA.state
  rw [List.map_cons, h2]
  simp

/-- The second element of a returned path is the state of the attempt sitting
directly above the root. -/
theorem found_second (s : α) (current : Attempt α) (rem : List α)
    (deeper : List (Attempt α)) (l' : List (Attempt α)) (lastA rootA : Attempt α)
    (hdecomp : current :: deeper = (l' ++ [lastA]) ++ [rootA]) :
    (((Attempt.mk s [] :: Attempt.mk current.state rem :: deeper).map
      Attempt.state).reverse).tail.head? = some lastA.state := by
  have h2 := congrArg (List.map Attempt.state) hdecomp
  simp only [List.map_cons, List.map_append, List.map_nil] at h2
  show ((s :: (current :: deeper).map Attempt.state).reverse).tail.head? = some lastA.state
  rw [List.map_cons, h2]
  simp

theorem rootPhase_step [DecidableEq α] (sys : StateImpl α) (v : Verbosity)
    (initial A B : α) (st st' : SearchState α)
    (hph : RootPhase initial A B st) (hs : (step sys v st).1 = .next st') :
    RootPhase initial A B st' := by
  rcases hph with hemp | hP1 | ⟨l, hl, hcase⟩ | ⟨l, hl, hBc⟩
  · -- empty stack: the loop returns, there is no next state
    rw [step_fst_nil sys v st hemp] at hs
    exact absurd hs (by intro hx; exact StepOut.noConfusion hx)
  · -- phase 1: nothing popped yet; this iteration pops B
    rcases hf : sys.is_final B with _ | _
    · by_cases hdup : (∃ a ∈ Attempt.mk initial [A] :: ([] : List (Attempt α)),
          a.state = B) ∨ B ∈ st.dead_ends
      · rw [step_fst_skip sys v st (Attempt.mk initial [B, A]) [] B [A] hP1 rfl hf hdup] at hs
        injection hs with h
        subst h
        refine Or.inr (Or.inr (Or.inl ⟨[], by simp, Or.inr ⟨rfl, ?_⟩⟩))
        rcases hdup with ⟨a, ha, hae⟩ | hd
        · rw [List.mem_singleton] at ha
          subst ha
          exact Or.inl ((show initial = B from hae).symm)
        · exact Or.inr hd
      · rw [step_fst_push sys v st (Attempt.mk initial [B, A]) [] B [A] hP1 rfl hf hdup] at hs
        injection hs with h
        subst h
        exact Or.inr (Or.inr (Or.inl
          ⟨[Attempt.mk B ((sys.get_possible_successors B).reverse)], by simp,
           Or.inl ⟨[], Attempt.mk B ((sys.get_possible_successors B).reverse), rfl, rfl⟩⟩))
    · rw [step_fst_found sys v st (Attempt.mk initial [B, A]) [] B [A] hP1 rfl hf] at hs
      exact absurd hs (by intro hx; exact StepOut.noConfusion hx)
  · rcases hcase with ⟨l', lastA, hldec, hlast⟩ | ⟨hlnil, hBc2⟩
    · -- phase 2 with B's attempt directly above the root
      subst hldec
      rcases l' with _ | ⟨c0, l''⟩
      · -- the top of the stack IS B's attempt
        have hA : st.attempts = lastA :: [Attempt.mk initial [A]] := by
          rw [hl]; rfl
        rcases hp : lastA.successors_to_try with _ | ⟨s, rem⟩
        · -- B's branch is exhausted: B goes into the dead-end set
          rw [step_fst_backtrack sys v st lastA [Attempt.mk initial [A]] hA hp] at hs
          injection hs with h
          subst h
          refine Or.inr (Or.inr (Or.inl ⟨[], rfl, Or.inr ⟨rfl, Or.inr ?_⟩⟩))
          rw [← hlast]
          exact List.mem_cons_self _ _
        · rcases hf : sys.is_final s with _ | _
          · by_cases hdup : (∃ a ∈ Attempt.mk lastA.state rem :: [Attempt.mk initial [A]],
                a.state = s) ∨ s ∈ st.dead_ends
            · rw [step_fst_skip sys v st lastA [Attempt.mk initial [A]] s rem hA hp hf hdup] at hs
              injection hs with h
              subst h
              exact Or.inr (Or.inr (Or.inl ⟨[Attempt.mk lastA.state rem], rfl,
                Or.inl ⟨[], Attempt.mk lastA.state rem, rfl, hlast⟩⟩))
            · rw [step_fst_push sys v st lastA [Attempt.mk initial [A]] s rem hA hp hf hdup] at hs
              injection hs with h
              subst h
              exact Or.inr (Or.inr (Or.inl
                ⟨[Attempt.mk s ((sys.get_possible_successors s).reverse),
                  Attempt.mk lastA.state rem], rfl,
                 Or.inl ⟨[Attempt.mk s ((sys.get_possible_successors s).reverse)],
                   Attempt.mk lastA.state rem, rfl, hlast⟩⟩))
          · rw [step_fst_found sys v st lastA [Attempt.mk initial [A]] s rem hA hp hf] at hs
            exact absurd hs (by intro hx; exact StepOut.noConfusion hx)
      · -- the top of the stack is deeper inside B's branch
        have hA : st.attempts = c0 :: ((l'' ++ [lastA]) ++ [Attempt.mk initial [A]]) := by
          rw [hl]; rfl
        rcases hp : c0.successors_to_try with _ | ⟨s, rem⟩
        · rw [step_fst_backtrack sys v st c0
            ((l'' ++ [lastA]) ++ [Attempt.mk initial [A]]) hA hp] at hs
          injection hs with h
          subst h
          exact Or.inr (Or.inr (Or.inl ⟨l'' ++ [lastA], rfl,
            Or.inl ⟨l'', lastA, rfl, hlast⟩⟩))
        · rcases hf : sys.is_final s with _ | _
          · by_cases hdup : (∃ a ∈ Attempt.mk c0.state rem ::
                ((l'' ++ [lastA]) ++ [Attempt.mk initial [A]]), a.state = s) ∨
                s ∈ st.dead_ends
            · rw [step_fst_skip sys v st c0 ((l'' ++ [lastA]) ++ [Attempt.mk initial [A]])
                s rem hA hp hf hdup] at hs
              injection hs with h
              subst h
              exact Or.inr (Or.inr (Or.inl ⟨Attempt.mk c0.state rem :: (l'' ++ [lastA]), rfl,
                Or.inl ⟨Attempt.mk c0.state rem :: l'', lastA, rfl, hlast⟩⟩))
            · rw [step_fst_push sys v st c0 ((l'' ++ [lastA]) ++ [Attempt.mk initial [A]])
                s rem hA hp hf hdup] at hs
              injection hs with h
              subst h
              exact Or.inr (Or.inr (Or.inl
                ⟨Attempt.mk s ((sys.get_possible_successors s).reverse) ::
                  Attempt.mk c0.state rem :: (l'' ++ [lastA]), rfl,
                 Or.inl ⟨Attempt.mk s ((sys.get_possible_successors s).reverse) ::
                   Attempt.mk c0.state rem :: l'', lastA, rfl, hlast⟩⟩))
          · rw [step_fst_found sys v st c0 ((l'' ++ [lastA]) ++ [Attempt.mk initial [A]])
              s rem hA hp hf] at hs
            exact absurd hs (by intro hx; exact StepOut.noConfusion hx)
    · -- phase 2 with bare root: this iteration pops A; B is already settled
      subst hlnil
      have hA : st.attempts = Attempt.mk initial [A] :: ([] : List (Attempt α)) := by
        rw [hl]; rfl
      rcases hf : sys.is_final A with _ | _
      · by_cases hdup : (∃ a ∈ Attempt.mk initial ([] : List α) :: ([] : List (Attempt α)),
            a.state = A) ∨ A ∈ st.dead_ends
        · rw [step_fst_skip sys v st (Attempt.mk initial [A]) [] A [] hA rfl hf hdup] at hs
          injection hs with h
          subst h
          exact Or.inr (Or.inr (Or.inr ⟨[], rfl, hBc2⟩))
        · rw [step_fst_push sys v st (Attempt.mk initial [A]) [] A [] hA rfl hf hdup] at hs
          injection hs with h
          subst h
          exact Or.inr (Or.inr (Or.inr
            ⟨[Attempt.mk A ((sys.get_possible_successors A).reverse)], rfl, hBc2⟩))
      · rw [step_fst_found sys v st (Attempt.mk initial [A]) [] A [] hA rfl hf] at hs
        exact absurd hs (by intro hx; exact StepOut.noConfusion hx)
  · -- phase 3: the root's pending is exhausted
    rcases l with _ | ⟨c, l2⟩
    · -- only the exhausted root is left: it is popped; the stack empties
      have hA : st.attempts = Attempt.mk initial ([] : List α) :: ([] : List (Attempt α)) := by
        rw [hl]; rfl
      rw [step_fst_backtrack sys v st (Attempt.mk initial []) [] hA rfl] at hs
      injection hs with h
      subst h
      exact Or.inl rfl
    · have hA : st.attempts = c :: (l2 ++ [Attempt.mk initial ([] : List α)]) := by
        rw [hl]; rfl
      rcases hp : c.successors_to_try with _ | ⟨s, rem⟩
      · rw [step_fst_backtrack sys v st c (l2 ++ [Attempt.mk initial []]) hA hp] at hs
        injection hs with h
        subst h
        exact Or.inr (Or.inr (Or.inr ⟨l2, rfl,
          hBc.imp_right (List.mem_cons_of_mem _)⟩))
      · rcases hf : sys.is_final s with _ | _
        · by_cases hdup : (∃ a ∈ Attempt.mk c.state rem ::
              (l2 ++ [Attempt.mk initial ([] : List α)]), a.state = s) ∨ s ∈ st.dead_ends
          · rw [step_fst_skip sys v st c (l2 ++ [Attempt.mk initial []]) s rem
              hA hp hf hdup] at hs
            injection hs with h
            subst h
            exact Or.inr (Or.inr (Or.inr ⟨Attempt.mk c.state rem :: l2, rfl, hBc⟩))
          · rw [step_fst_push sys v st c (l2 ++ [Attempt.mk initial []]) s rem
              hA hp hf hdup] at hs
            injection hs with h
            subst h
            exact Or.inr (Or.inr (Or.inr
              ⟨Attempt.mk s ((sys.get_possible_successors s).reverse) ::
                Attempt.mk c.state rem :: l2, rfl, hBc⟩))
        · rw [step_fst_found sys v st c (l2 ++ [Attempt.mk initial []]) s rem hA hp hf] at hs
          exact absurd hs (by intro hx; exact StepOut.noConfusion hx)

/-- Any successful path of a search whose initial state has successors [A, B]
enters through B — unless B's branch was exhausted first (B was backtracked
into the dead-end set, or B is the initial state and never formed a branch). -/
theorem run_lifo_aux [DecidableEq α] (sys : StateImpl α) (v : Verbosity)
    (initial A B : α) :
    ∀ (fuel : Nat) (st : SearchState α) (p : List α),
      RootPhase initial A B st →
      (run sys v fuel st).1 = some (.ok p) →
      p.head? = some initial ∧
      (p.tail.head? = some B ∨ B = initial ∨ B ∈ st.dead_ends ∨
        B ∈ runBacktracked sys v fuel st) := by
  intro fuel
  induction fuel with
  | zero =>
    intro st p _ h
    exact absurd h (by simp [run])
  | succ fuel ih =>
    intro st p hph h
    rw [run_succ_fst] at h
    rcases hstep : (step sys v st).1 with r | st2 | _
    · -- the loop returned this iteration; it must be the found branch
      rw [hstep] at h
      have hsome : some r = some (Except.ok p) := h
      injection hsome with hr
      subst hr
      rcases hA : st.attempts with _ | ⟨current, deeper⟩
      · rw [step_fst_nil sys v st hA] at hstep
        injection hstep with hbad
        exact Except.noConfusion hbad
      · rcases hp : current.successors_to_try with _ | ⟨s, rem⟩
        · rw [step_fst_backtrack sys v st current deeper hA hp] at hstep
          exact StepOut.noConfusion hstep
        · rcases hf : sys.is_final s with _ | _
          · by_cases hdup : (∃ a ∈ Attempt.mk current.state rem :: deeper,
                a.state = s) ∨ s ∈ st.dead_ends
            · rw [step_fst_skip sys v st current deeper s rem hA hp hf hdup] at hstep
              exact StepOut.noConfusion hstep
            · rw [step_fst_push sys v st current deeper s rem hA hp hf hdup] at hstep
              exact StepOut.noConfusion hstep
          · rw [step_fst_found sys v st current deeper s rem hA hp hf] at hstep
            injection hstep with h1
            injection h1 with h2
            subst h2
            rcases hph with hemp | hP1 | ⟨l, hl, hcase⟩ | ⟨l, hl, hBc⟩
            · rw [hemp] at hA
              exact absurd hA (by simp)
            · rw [hP1] at hA
              injection hA with hc hd
              subst hc
              subst hd
              have hp2 : B :: [A] = s :: rem := hp
              injection hp2 with hB hrem
              subst hB
              subst hrem
              exact ⟨by simp, Or.inl (by simp)⟩
            · rcases hcase with ⟨l', lastA, hldec, hlast⟩ | ⟨hlnil, hBc2⟩
              · subst hldec
                have hdecomp : current :: deeper =
                    (l' ++ [lastA]) ++ [Attempt.mk initial [A]] := hA.symm.trans hl
                refine ⟨?_, Or.inl ?_⟩
                · exact found_head s current rem deeper (l' ++ [lastA])
                    (Attempt.mk initial [A]) hdecomp
                · have h2nd := found_second s current rem deeper l' lastA
                    (Attempt.mk initial [A]) hdecomp
                  rw [hlast] at h2nd
                  exact h2nd
              · subst hlnil
                rw [hl] at hA
                have hA2 : Attempt.mk initial [A] :: ([] : List (Attempt α)) =
                    current :: deeper := hA
                injection hA2 with hc hd
                subst hc
                subst hd
                have hp2 : A :: ([] : List α) = s :: rem := hp
                injection hp2 with hA3 hrem
                subst hA3
                subst hrem
                refine ⟨by simp, ?_⟩
                rcases hBc2 with hq | hq
                · exact Or.inr (Or.inl hq)
                · exact Or.inr (Or.inr (Or.inl hq))
            · have hdecomp : current :: deeper = l ++ [Attempt.mk initial []] :=
                hA.symm.trans hl
              refine ⟨found_head s current rem deeper l (Attempt.mk initial []) hdecomp, ?_⟩
              rcases hBc with hq | hq
              · exact Or.inr (Or.inl hq)
              · exact Or.inr (Or.inr (Or.inl hq))
    · -- the loop continues: transfer along the preserved phase invariant
      rw [hstep] at h
      have hIH := ih st2 p (rootPhase_step sys v initial A B st st2 hph hstep) h
      refine ⟨hIH.1, ?_⟩
      rcases hIH.2 with hc | hc | hc | hc
      · exact Or.inl hc
      · exact Or.inr (Or.inl hc)
      · rcases step_dead_sub sys v st st2 hstep B hc with hb | hb
        · refine Or.inr (Or.inr (Or.inr ?_))
          rw [runBacktracked_succ_next sys v fuel st st2 hstep]
          exact List.mem_append.mpr (Or.inl hb)
        · exact Or.inr (Or.inr (Or.inl hb))
      · refine Or.inr (Or.inr (Or.inr ?_))
        rw [runBacktracked_succ_next sys v fuel st st2 hstep]
        exact List.mem_append.mpr (Or.inr hc)
    · exact absurd hstep (step_no_panic sys v st)

/-- Whether a step outcome is the `assert!(false)` branch. -/
def StepOut.isPanic : StepOut α → Bool
  | .panicked => true
  | _ => false

instance exceptDecEq [DecidableEq ε] [DecidableEq β] : DecidableEq (Except ε β) :=
  fun x y =>
    match x, y with
    | .ok a, .ok b =>
      if h : a = b then .isTrue (by rw [h])
      else .isFalse (fun hc => h (Except.ok.inj hc))
    | .ok _, .error _ => .isFalse (fun hc => Except.noConfusion hc)
    | .error _, .ok _ => .isFalse (fun hc => Except.noConfusion hc)
    | .error a, .error b =>
      if h : a = b then .isTrue (by rw [h])
      else .isFalse (fun hc => h (Except.error.inj hc))

/-- The search state reached after 3 loop iterations on the JumpingCounter
demo started at value 1. -/
def jumpState3 : SearchState Int :=
  ⟨[Attempt.mk 7 [9, 8], Attempt.mk 5 [6], Attempt.mk 3 [4], Attempt.mk 1 [2]], []⟩

/-- The search state reached after 4 loop iterations on the JumpingCounter
demo started at value 1. -/
def jumpState4 : SearchState Int :=
  ⟨[Attempt.mk 9 [11, 10], Attempt.mk 7 [8], Attempt.mk 5 [6], Attempt.mk 3 [4],
    Attempt.mk 1 [2]], []⟩

-- Claim theorems ----------------------------------------------------------------

/-- C1 counterexample: the JumpingCounter state with value 4 is terminal, yet
`get_sequence_to_final_state` started on it does not return the
single-element path [4] — it exhausts the search over 4's successors and
returns the failure signal. -/
theorem C1_counterexample :
    jumpingCounter.is_final 4 = true ∧
    (get_sequence_to_final_state jumpingCounter 100 4 .Quiet).1 =
      some (.error exhausted_message) := by
  constructor
  · decide
  · decide

/-- C1 amended: a terminal initial state is not special-cased: its successors
are computed at initialization and its own terminality is never tested; in
particular when a terminal initial state has no successors at all, the search
returns the exhaustion failure instead of the path [initial]. -/
theorem C1_terminal_initial_still_searches [DecidableEq α] (sys : StateImpl α)
    (v : Verbosity) (fuel : Nat) (initial : α)
    (hfin : sys.is_final initial = true)
    (hsucc : sys.get_possible_successors initial = []) :
    (get_sequence_to_final_state sys (fuel + 2) initial v).1 =
      some (.error exhausted_message) := by
  unfold get_sequence_to_final_state
  show (run sys v (fuel + 1 + 1) (initState sys initial)).1 =
    some (.error exhausted_message)
  rw [run_succ_fst]
  rw [step_fst_backtrack sys v (initState sys initial)
    (Attempt.mk initial ((sys.get_possible_successors initial).reverse)) [] rfl
    (by simp [hsucc])]
  show (run sys v (fuel + 1) ⟨[], [initial]⟩).1 = some (.error exhausted_message)
  rw [run_succ_fst]
  rw [step_fst_nil sys v ⟨[], [initial]⟩ rfl]

theorem C1_amended_witness :
    instantlyDone.is_final 0 = true ∧
    instantlyDone.get_possible_successors 0 = [] ∧
    (get_sequence_to_final_state instantlyDone 2 0 .Quiet).1 =
      some (.error exhausted_message) :=
  ⟨rfl, rfl, C1_terminal_initial_still_searches instantlyDone .Quiet 0 0 rfl rfl⟩

/-- C2: whenever the search returns a successful path, its first element is
the initial state, its last element is terminal, and every element after the
first is a member of its predecessor's successor list. -/
theorem C2_successful_path_is_valid [DecidableEq α] (sys : StateImpl α)
    (v : Verbosity) (fuel : Nat) (initial : α) (p : List α)
    (h : (get_sequence_to_final_state sys fuel initial v).1 = some (.ok p)) :
    p.head? = some initial ∧ (p.map sys.is_final).getLast? = some true ∧
    List.Chain' (fun x y => y ∈ sys.get_possible_successors x) p := by
  obtain ⟨h1, h2, h3, _⟩ :=
    run_ok_spec sys v initial fuel (initState sys initial) p
      (searchInv_init sys initial) h
  exact ⟨h1, h2, h3⟩

theorem C2_witness :
    ([1, 3, 4] : List Int).head? = some 1 ∧
    (([1, 3, 4] : List Int).map jumpingCounter.is_final).getLast? = some true ∧
    List.Chain' (fun x y => y ∈ jumpingCounter.get_possible_successors x)
      [1, 3, 4] :=
  C2_successful_path_is_valid jumpingCounter .Quiet 100 1 [1, 3, 4] (by decide)

/-- C3 counterexample: with the 2-cycle consumer (successors of 0 are [1],
successors of 1 are [0], 0 terminal) the search from the terminal initial
state 0 returns the successful path [0, 1, 0], in which the state 0 appears
twice. -/
theorem C3_counterexample :
    (get_sequence_to_final_state loopBack 3 0 .Quiet).1 = some (.ok [0, 1, 0]) ∧
    ([0, 1, 0] : List Int).count 0 = 2 := by
  constructor
  · decide
  · decide

/-- C3 amended: whenever the search returns a successful path and the initial
state is not terminal, no state appears twice in the path.  (The only
possible duplicate is the returned terminal endpoint coinciding with a
terminal initial state, as in the counterexample.) -/
theorem C3_nodup_when_initial_not_terminal [DecidableEq α] (sys : StateImpl α)
    (v : Verbosity) (fuel : Nat) (initial : α) (p : List α)
    (hnt : sys.is_final initial = false)
    (h : (get_sequence_to_final_state sys fuel initial v).1 = some (.ok p)) :
    p.Nodup := by
  obtain ⟨_, _, _, h4⟩ :=
    run_ok_spec sys v initial fuel (initState sys initial) p
      (searchInv_init sys initial) h
  exact h4 hnt

theorem C3_amended_witness :
    jumpingCounter.is_final 1 = false ∧ ([1, 3, 4] : List Int).Nodup :=
  ⟨by decide,
   C3_nodup_when_initial_not_terminal jumpingCounter .Quiet 100 1 [1, 3, 4]
     (by decide) (by decide)⟩

/-- C4: during one search call, `get_possible_successors` is invoked on any
given state value at most once — the invocation trace (the initial state at
initialization, then each freshly pushed state) has no duplicates. -/
theorem C4_no_state_expanded_twice [DecidableEq α] (sys : StateImpl α)
    (v : Verbosity) (fuel : Nat) (initial : α) :
    (initial :: runExpanded sys v fuel (initState sys initial)).Nodup := by
  have h := runExpanded_nodup_aux sys v fuel (initState sys initial) [initial]
    (List.nodup_singleton initial) ?_
  · simpa using h
  · intro s hs
    rw [List.mem_singleton] at hs
    subst hs
    left
    simp [initState]

/-- C5: if the reachable space is contained in a finite set `R` that is closed
under successors and contains no terminal state, the search terminates — with
the explicitly computed fuel bound — and returns the exhaustion failure. -/
theorem C5_exhausts_finite_guarded_space [DecidableEq α] (sys : StateImpl α)
    (v : Verbosity) (initial : α) (R : Finset α)
    (hmem : initial ∈ R)
    (hclosed : ∀ s ∈ R, ∀ t ∈ sys.get_possible_successors s, t ∈ R)
    (hnofinal : ∀ s ∈ R, sys.is_final s = false) :
    (get_sequence_to_final_state sys
        (searchMeasure sys R (initState sys initial) + 1) initial v).1 =
      some (.error exhausted_message) := by
  unfold get_sequence_to_final_state
  refine run_exhausts sys v R initial hclosed hnofinal _ _ (le_refl _) ?_
    (searchInv_init sys initial)
  intro s hs
  simp only [initState, List.map_cons, List.map_nil, List.mem_singleton] at hs
  exact hs ▸ hmem

theorem C5_witness :
    (get_sequence_to_final_state jumpingCounter
        (searchMeasure jumpingCounter ({5, 6, 7, 8, 9, 10, 11, 12} : Finset Int)
          (initState jumpingCounter 5) + 1) 5 .Quiet).1 =
      some (.error exhausted_message) :=
  C5_exhausts_finite_guarded_space jumpingCounter .Quiet 5
    ({5, 6, 7, 8, 9, 10, 11, 12} : Finset Int)
    (by decide) (by decide) (by decide)

/-- C6: candidates are taken LIFO from the end of the pending list: whenever
the initial state's successors are [A, B] in that order and the search
returns a successful path, B is the first candidate the loop ever examines
(before anything of A's branch), and the returned path enters through B —
its second element is B — unless B's branch was exhausted first (B was
backtracked into the dead-end set after its whole subtree failed, or B is
the initial state itself and never formed a branch).  In particular, when
both A and B lead to terminal states and B's branch succeeds, the engine
returns B's path, regardless of A's outcome. -/
theorem C6_lifo_tiebreak [DecidableEq α] (sys : StateImpl α) (v : Verbosity)
    (fuel : Nat) (initial A B : α) (p : List α)
    (hS : sys.get_possible_successors initial = [A, B])
    (hok : (get_sequence_to_final_state sys fuel initial v).1 = some (.ok p)) :
    (runExamined sys v fuel (initState sys initial)).head? = some B ∧
    p.head? = some initial ∧
    (p.tail.head? = some B ∨ B = initial ∨
      B ∈ runBacktracked sys v fuel (initState sys initial)) := by
  rcases fuel with _ | fuel
  · exact absurd hok (by simp [get_sequence_to_final_state, run])
  have hph0 : RootPhase initial A B (initState sys initial) := by
    refine Or.inr (Or.inl ?_)
    simp [initState, hS]
  have haux := run_lifo_aux sys v initial A B (fuel + 1) (initState sys initial) p
    hph0 hok
  refine ⟨?_, haux.1, ?_⟩
  · have hex : stepExamined (initState sys initial) = [B] := by
      simp [stepExamined, initState, hS]
    simp only [runExamined]
    rcases hs : (step sys v (initState sys initial)).1 with r | st2 | _
    · simp [hex]
    · simp [hex]
    · simp [hex]
  · rcases haux.2 with hc | hc | hc | hc
    · exact Or.inl hc
    · exact Or.inr (Or.inl hc)
    · exact absurd hc (by simp [initState])
    · exact Or.inr (Or.inr hc)

theorem C6_witness :
    (runExamined bothLead .Quiet 2 (initState bothLead 0)).head? = some 2 ∧
    ([0, 2, 12] : List Int).head? = some 0 ∧
    (([0, 2, 12] : List Int).tail.head? = some 2 ∨ (2 : Int) = 0 ∨
      (2 : Int) ∈ runBacktracked bothLead .Quiet 2 (initState bothLead 0)) :=
  C6_lifo_tiebreak bothLead .Quiet 2 0 1 2 [0, 2, 12] (by decide) (by decide)

/-- C7: the verbosity argument gates diagnostic output only; two runs that
differ only in verbosity return the same search result. -/
theorem C7_verbosity_never_affects_result [DecidableEq α] (sys : StateImpl α)
    (fuel : Nat) (initial : α) (v v' : Verbosity) :
    (get_sequence_to_final_state sys fuel initial v).1 =
      (get_sequence_to_final_state sys fuel initial v').1 := by
  unfold get_sequence_to_final_state
  exact run_fst_verbosity sys v v' fuel (initState sys initial)

/-- C8: the `assert!(false)` branch of the backtrack arm is unreachable: no
loop iteration, from any consumer state whatsoever, produces the panic
outcome — whenever the backtrack arm runs, the stack was just observed
non-empty, so its pop succeeds. -/
theorem C8_assert_branch_unreachable [DecidableEq α] (sys : StateImpl α)
    (v : Verbosity) (st : SearchState α) :
    ((step sys v st).1).isPanic = false := by
  rcases hs : (step sys v st).1 with r | st2 | _
  · rfl
  · rfl
  · exact absurd hs (step_no_panic sys v st)

/-- C9: at every iteration of the loop the states on the attempts stack are
pairwise distinct and disjoint from the dead-end set, and the dead-end set
only ever grows as the iterations proceed. -/
theorem C9_stack_invariants_and_dead_end_growth [DecidableEq α]
    (sys : StateImpl α) (v : Verbosity) (initial : α) (n m : Nat)
    (st' st'' : SearchState α)
    (h1 : iterate sys v n (initState sys initial) = some st')
    (hnm : n ≤ m)
    (h2 : iterate sys v m (initState sys initial) = some st'') :
    (st'.attempts.map Attempt.state).Nodup ∧
    List.Disjoint (st'.attempts.map Attempt.state) st'.dead_ends ∧
    st'.dead_ends ⊆ st''.dead_ends := by
  have hInv' := iterate_inv sys v initial n (initState sys initial) st'
    (searchInv_init sys initial) h1
  refine ⟨hInv'.nodup, ?_, ?_⟩
  · intro s hs hs'
    exact hInv'.fresh s hs hs'
  · have hrest : iterate sys v (m - n) st' = some st'' := by
      have hsplit := iterate_split sys v n (m - n) (initState sys initial)
      rw [h1] at hsplit
      have harith : n + (m - n) = m := by omega
      rw [harith, h2] at hsplit
      exact hsplit.symm
    exact iterate_dead_mono sys v (m - n) st' st'' hrest

theorem C9_witness :
    (jumpState3.attempts.map Attempt.state).Nodup ∧
    List.Disjoint (jumpState3.attempts.map Attempt.state) jumpState3.dead_ends ∧
    jumpState3.dead_ends ⊆ jumpState4.dead_ends :=
  C9_stack_invariants_and_dead_end_growth jumpingCounter .Quiet 1 3 4
    jumpState3 jumpState4 (by decide) (by omega) (by decide)

end Backtracking

/-- C10: rotating any shape one step in one direction and then one step in the
opposite direction returns the original shape. -/
theorem Shape_rotate_inverse : ∀ (s : Shape) (b : Bool),
    (s.rotate b).rotate (!b) = s := by
  intro s b
  cases s <;> cases b <;> rfl
